import Mathlib

/-!
Verification of the LMDB CLI tool (shard writer, multi-shard reader, recovery)
against its specification.  The embedding follows `src/lmdb_main.py` and
`lmdb_cli_tool/utils/utils.py`: the store is a key/value map, the coordinator
loop of `LMDBWriter.create_dataset` is a fold over the serialized stream of
processed items, and the byte-level codecs are modelled exactly.
-/

namespace LmdbTool

/-- Byte strings are modelled as lists of naturals (each byte a value below 256;
the bound is irrelevant to the properties proved here). -/
abbrev Bytes := List Nat

/-- The key space of one shard store: `image-<idx>`, `label-<idx>` and the
reserved metadata key `__counter__` (see `LMDBWriter.create_dataset` and
`LMDBWriter._write_cache`). -/
inductive Key where
  | image (idx : Nat)
  | label (idx : Nat)
  | counterKey
  deriving DecidableEq

/-- One LMDB environment, as a finite key/value map (function view). -/
abbrev Store := Key → Option Bytes

def emptyStore : Store := fun _ => none

/-- `txn.put k v`: insert or replace. -/
def put (s : Store) (k : Key) (v : Bytes) : Store :=
  fun q => if q = k then some v else s q

theorem put_same (s : Store) (k : Key) (v : Bytes) : put s k v k = some v := by
  simp [put]

theorem put_other (s : Store) (k : Key) (v : Bytes) (q : Key) (h : q ≠ k) :
    put s k v q = s q := by
  simp [put, h]

/-! ### Decimal digits

`decDigitsBE n` is the list of decimal digits of `n`, most significant first,
as produced by the Python conversions `str(n)` and `"{:d}".format(n)`;
`0` prints as `"0"`. -/

/-- Fuel-driven digit extraction; called with fuel `n` so it is total and
computes by kernel reduction. -/
def decDigitsAux : Nat → Nat → List Nat
  | 0, _ => []
  | _ + 1, 0 => []
  | fuel + 1, n + 1 => decDigitsAux fuel ((n + 1) / 10) ++ [(n + 1) % 10]

/-- Big-endian decimal digits of `n` (the digits of `str(n)` in Python). -/
def decDigitsBE (n : Nat) : List Nat :=
  if n = 0 then [0] else decDigitsAux n n

/-- Numeric value of a big-endian digit list. -/
def valBE : List Nat → Nat
  | [] => 0
  | d :: ds => d * 10 ^ ds.length + valBE ds

theorem valBE_append_single (L : List Nat) (d : Nat) :
    valBE (L ++ [d]) = 10 * valBE L + d := by
  induction L with
  | nil => simp [valBE]
  | cons x xs ih =>
    show valBE (x :: (xs ++ [d])) = _
    simp only [valBE, ih, List.length_append, List.length_cons, List.length_nil]
    ring

theorem decDigitsAux_spec (fuel n : Nat) (h : n ≤ fuel) :
    valBE (decDigitsAux fuel n) = n ∧
    (∀ d ∈ decDigitsAux fuel n, d < 10) ∧
    (∀ k, n < 10 ^ k → (decDigitsAux fuel n).length ≤ k) := by
  induction fuel generalizing n with
  | zero =>
    interval_cases n
    simp [decDigitsAux, valBE]
  | succ fuel ih =>
    match n with
    | 0 => simp [decDigitsAux, valBE]
    | n + 1 =>
      have hdiv : (n + 1) / 10 ≤ fuel := by omega
      obtain ⟨hval, hlt, hlen⟩ := ih ((n + 1) / 10) hdiv
      refine ⟨?_, ?_, ?_⟩
      · rw [decDigitsAux, valBE_append_single, hval]; omega
      · intro d hd
        rw [decDigitsAux] at hd
        rcases List.mem_append.mp hd with h1 | h1
        · exact hlt d h1
        · simp at h1; omega
      · intro k hk
        match k with
        | 0 => omega
        | k + 1 =>
          have : (n + 1) / 10 < 10 ^ k := by
            have h10 : (10 : Nat) ^ (k + 1) = 10 ^ k * 10 := by ring
            rw [h10] at hk
            omega
          have := hlen k this
          rw [decDigitsAux]
          simp only [List.length_append, List.length_cons, List.length_nil]
          omega

theorem valBE_decDigitsBE (n : Nat) : valBE (decDigitsBE n) = n := by
  unfold decDigitsBE
  split
  · simp [valBE]; omega
  · exact (decDigitsAux_spec n n le_rfl).1

theorem decDigitsBE_lt (n : Nat) : ∀ d ∈ decDigitsBE n, d < 10 := by
  unfold decDigitsBE
  split
  · simp
  · exact (decDigitsAux_spec n n le_rfl).2.1

theorem decDigitsBE_length_le (n k : Nat) (hk : 0 < k) (h : n < 10 ^ k) :
    (decDigitsBE n).length ≤ k := by
  unfold decDigitsBE
  split
  · simpa using hk
  · exact (decDigitsAux_spec n n le_rfl).2.2 k h

/-! ### Counter metadata codec

The writer persists the counter with `txn.put(b"__counter__", str(self.counter).encode())`
and all readers parse it with `int(txn.get(b"__counter__", b"0"))`. -/

/-- `str(n).encode()`: ASCII bytes of the decimal representation. -/
def encCounter (n : Nat) : Bytes :=
  (decDigitsBE n).map (fun d => 48 + d)

/-- The byte literal `b"0"` used as default for an absent counter key. -/
def zeroBytes : Bytes := [48]

/-- Models Python `int()` applied to the canonical ASCII decimal byte strings
this program stores (no sign, no whitespace). -/
def pyIntB (b : Bytes) : Nat :=
  b.foldl (fun a d => 10 * a + (d - 48)) 0

theorem foldl_digits (L : List Nat) (a : Nat) :
    L.foldl (fun a d => 10 * a + ((48 + d) - 48)) a = a * 10 ^ L.length + valBE L := by
  induction L generalizing a with
  | nil => simp [valBE]
  | cons d ds ih =>
    simp only [List.foldl_cons, ih, valBE, List.length_cons]
    have hd : 48 + d - 48 = d := by omega
    rw [hd]
    ring

theorem pyIntB_encCounter (n : Nat) : pyIntB (encCounter n) = n := by
  unfold pyIntB encCounter
  rw [List.foldl_map]
  have := foldl_digits (decDigitsBE n) 0
  simpa [valBE_decDigitsBE] using this

theorem encCounter_zero : encCounter 0 = zeroBytes := by decide

/-! ### Store keys as strings (C7)

The code builds keys with the f-strings `f"image-{idx:09d}"` and
`f"label-{idx:09d}"`: the namespace literal, a dash, and the decimal index
left-padded with zeros to width 9 (wider indices keep all their digits). -/

/-- Zero-pad a big-endian digit list on the left to width 9. -/
def pad9 (n : Nat) : List Nat :=
  List.replicate (9 - (decDigitsBE n).length) 0 ++ decDigitsBE n

/-- The character for the decimal digit `d`. -/
def digitChar (d : Nat) : Char := Char.ofNat (48 + d)

/-- The characters of the Python format `"{:09d}".format(n)`. -/
def fmt09 (n : Nat) : List Char := (pad9 n).map digitChar

/-- The string key `f"image-{n:09d}"`. -/
def imageKeyStr (n : Nat) : String := "image-" ++ ⟨fmt09 n⟩

/-- The string key `f"label-{n:09d}"`. -/
def labelKeyStr (n : Nat) : String := "label-" ++ ⟨fmt09 n⟩

theorem valBE_pad9 (n : Nat) : valBE (pad9 n) = n := by
  unfold pad9
  generalize 9 - (decDigitsBE n).length = k
  induction k with
  | zero => simpa using valBE_decDigitsBE n
  | succ k ih =>
    simp only [List.replicate_succ, List.cons_append, valBE, Nat.zero_mul, Nat.zero_add]
    exact ih

theorem pad9_lt (n : Nat) : ∀ d ∈ pad9 n, d < 10 := by
  intro d hd
  rcases List.mem_append.mp hd with h | h
  · have := List.eq_of_mem_replicate h
    omega
  · exact decDigitsBE_lt n d h

theorem pad9_length (n : Nat) (h : n < 10 ^ 9) : (pad9 n).length = 9 := by
  have := decDigitsBE_length_le n 9 (by norm_num) h
  unfold pad9
  simp only [List.length_append, List.length_replicate]
  omega

theorem valBE_lt_pow (L : List Nat) (h : ∀ d ∈ L, d < 10) :
    valBE L < 10 ^ L.length := by
  induction L with
  | nil => simp [valBE]
  | cons d ds ih =>
    have hd : d < 10 := h d (List.mem_cons_self d ds)
    have hds := ih (fun x hx => h x (List.mem_cons_of_mem d hx))
    simp only [valBE, List.length_cons, pow_succ]
    calc d * 10 ^ ds.length + valBE ds
        < d * 10 ^ ds.length + 10 ^ ds.length := by omega
      _ = (d + 1) * 10 ^ ds.length := by ring
      _ ≤ 10 * 10 ^ ds.length := by
          have : d + 1 ≤ 10 := by omega
          exact Nat.mul_le_mul_right _ this
      _ = 10 ^ ds.length * 10 := by ring

/-- On equal-length digit lists, numeric order implies lexicographic order. -/
theorem list_lt_of_valBE_lt (L1 L2 : List Nat) (hlen : L1.length = L2.length)
    (h1 : ∀ d ∈ L1, d < 10) (h2 : ∀ d ∈ L2, d < 10)
    (hval : valBE L1 < valBE L2) : List.Lex (· < ·) L1 L2 := by
  induction L1 generalizing L2 with
  | nil =>
    match L2 with
    | [] => simp [valBE] at hval
    | d :: ds => simp at hlen
  | cons a as ih =>
    match L2 with
    | [] => simp at hlen
    | b :: bs =>
      have hlen2 : as.length = bs.length := by simpa using hlen
      have ha : a < 10 := h1 a (List.mem_cons_self a as)
      have hb : b < 10 := h2 b (List.mem_cons_self b bs)
      rcases Nat.lt_trichotomy a b with hab | hab | hab
      · exact List.Lex.rel hab
      · subst hab
        refine List.Lex.cons ?_
        apply ih
        · exact hlen2
        · exact fun x hx => h1 x (List.mem_cons_of_mem a hx)
        · exact fun x hx => h2 x (List.mem_cons_of_mem a hx)
        · have := valBE_lt_pow bs (fun x hx => h2 x (List.mem_cons_of_mem a hx))
          simp only [valBE] at hval
          rw [hlen2] at hval
          omega
      · exfalso
        have hv1 := valBE_lt_pow as (fun x hx => h1 x (List.mem_cons_of_mem a hx))
        have hv2 := valBE_lt_pow bs (fun x hx => h2 x (List.mem_cons_of_mem b hx))
        simp only [valBE] at hval
        have hpow : (10 : Nat) ^ as.length = 10 ^ bs.length := by rw [hlen2]
        have : (b + 1) * 10 ^ bs.length ≤ a * 10 ^ bs.length :=
          Nat.mul_le_mul_right _ (by omega)
        nlinarith [hv1, hv2, hval]

theorem toNat_digitChar (d : Nat) (h : d < 10) : (digitChar d).toNat = 48 + d := by
  have hv : (48 + d).isValidChar := Or.inl (by omega)
  unfold digitChar Char.ofNat
  rw [dif_pos hv]
  simp [Char.ofNatAux, Char.toNat, UInt32.toNat]

theorem digitChar_lt (a b : Nat) (ha : a < 10) (hb : b < 10) (h : a < b) :
    digitChar a < digitChar b := by
  rw [Char.lt_def, UInt32.lt_def, BitVec.lt_def]
  show (digitChar a).toNat < (digitChar b).toNat
  rw [toNat_digitChar a ha, toNat_digitChar b hb]
  omega

theorem digitChar_inj_on (a b : Nat) (ha : a < 10) (hb : b < 10)
    (h : digitChar a = digitChar b) : a = b := by
  have := congrArg Char.toNat h
  rw [toNat_digitChar a ha, toNat_digitChar b hb] at this
  omega

/-- Mapping digits to digit characters preserves the lexicographic order. -/
theorem list_lt_map_digitChar (L1 L2 : List Nat)
    (h1 : ∀ d ∈ L1, d < 10) (h2 : ∀ d ∈ L2, d < 10) (h : List.Lex (· < ·) L1 L2) :
    List.Lex (· < ·) (L1.map digitChar) (L2.map digitChar) := by
  induction h with
  | nil => exact List.Lex.nil
  | @rel a as b bs hab =>
    exact List.Lex.rel
      (digitChar_lt a b (h1 a (List.mem_cons_self _ _)) (h2 b (List.mem_cons_self _ _)) hab)
  | @cons a as bs hlt ih =>
    refine List.Lex.cons ?_
    exact ih (fun x hx => h1 x (List.mem_cons_of_mem a hx))
      (fun x hx => h2 x (List.mem_cons_of_mem a hx))

/-- Prefixing both sides with the same character list preserves the order. -/
theorem list_lt_append_left (p : List Char) (xs ys : List Char)
    (h : List.Lex (· < ·) xs ys) : List.Lex (· < ·) (p ++ xs) (p ++ ys) := by
  induction p with
  | nil => simpa using h
  | cons c cs ih => exact List.Lex.cons ih

theorem fmt09_lt (i j : Nat) (hij : i < j) (hj : j < 10 ^ 9) :
    List.Lex (· < ·) (fmt09 i) (fmt09 j) := by
  apply list_lt_map_digitChar _ _ (pad9_lt i) (pad9_lt j)
  apply list_lt_of_valBE_lt
  · rw [pad9_length i (lt_trans hij hj), pad9_length j hj]
  · exact pad9_lt i
  · exact pad9_lt j
  · rw [valBE_pad9, valBE_pad9]; exact hij

/-- C7: store keys are the namespace literal (`"image-"` or `"label-"`)
followed by the index zero-padded to 9 decimal digits, and within one
namespace the encoding is order-preserving: for indices `i < j` below `10^9`
the key of `i` is lexicographically smaller than the key of `j`. -/
theorem key_encoding_order (i j : Nat) (hij : i < j) (hj : j < 10 ^ 9) :
    (fmt09 i).length = 9 ∧ (fmt09 j).length = 9 ∧
    imageKeyStr i < imageKeyStr j ∧ labelKeyStr i < labelKeyStr j := by
  refine ⟨?_, ?_, ?_, ?_⟩
  · simpa [fmt09] using pad9_length i (lt_trans hij hj)
  · simpa [fmt09] using pad9_length j hj
  · have h := list_lt_append_left "image-".data _ _ (fmt09_lt i j hij hj)
    rw [String.lt_iff_toList_lt]
    show List.Lex (· < ·) _ _
    simpa [imageKeyStr, String.toList] using h
  · have h := list_lt_append_left "label-".data _ _ (fmt09_lt i j hij hj)
    rw [String.lt_iff_toList_lt]
    show List.Lex (· < ·) _ _
    simpa [labelKeyStr, String.toList] using h

/-- Witness for `key_encoding_order` at `i = 3`, `j = 17`. -/
theorem key_encoding_order_witness :
    3 < 17 ∧ 17 < 10 ^ 9 ∧
    ((fmt09 3).length = 9 ∧ (fmt09 17).length = 9 ∧
      imageKeyStr 3 < imageKeyStr 17 ∧ labelKeyStr 3 < labelKeyStr 17) :=
  ⟨by decide, by norm_num, key_encoding_order 3 17 (by decide) (by norm_num)⟩

/-! ### Text codec (utils.py)

`str2bytes` is `string.encode("utf-8")` and `bytes2str` is
`bytes.decode("utf-8")`.  Strings are sequences of Unicode scalar values
(the encodable Python strings); bytes are modelled as `List Nat`. -/

/-- UTF-8 encoding of one Unicode scalar value. -/
def utf8EncodeChar (c : Nat) : Bytes :=
  if c < 128 then [c]
  else if c < 2048 then [192 + c / 64, 128 + c % 64]
  else if c < 65536 then [224 + c / 4096, 128 + c / 64 % 64, 128 + c % 64]
  else [240 + c / 262144, 128 + c / 4096 % 64, 128 + c / 64 % 64, 128 + c % 64]

/-- Models `string.encode("utf-8")` from `utils.str2bytes`. -/
def str2bytes (s : String) : Bytes :=
  s.data.flatMap (fun ch => utf8EncodeChar ch.toNat)

/-- One step of strict UTF-8 decoding: given a leading byte and the bytes
after it, return the decoded Unicode scalar value and the remaining bytes, or
`none` on malformed input (stray or missing continuation bytes, overlong
forms, surrogates, values beyond `0x10FFFF`). -/
def utf8DecodeStep (b0 : Nat) (rest : List Nat) : Option (Nat × List Nat) :=
  if b0 < 128 then some (b0, rest)
  else if b0 < 192 then none
  else if b0 < 224 then
    match rest.head? with
    | none => none
    | some b1 =>
      if 128 ≤ b1 ∧ b1 < 192 then
        if 128 ≤ (b0 - 192) * 64 + (b1 - 128) then
          some ((b0 - 192) * 64 + (b1 - 128), rest.drop 1)
        else none
      else none
  else if b0 < 240 then
    match rest.head?, (rest.drop 1).head? with
    | some b1, some b2 =>
      if (128 ≤ b1 ∧ b1 < 192) ∧ (128 ≤ b2 ∧ b2 < 192) then
        if 2048 ≤ (b0 - 224) * 4096 + (b1 - 128) * 64 + (b2 - 128) ∧
            ¬(55296 ≤ (b0 - 224) * 4096 + (b1 - 128) * 64 + (b2 - 128) ∧
              (b0 - 224) * 4096 + (b1 - 128) * 64 + (b2 - 128) < 57344) then
          some ((b0 - 224) * 4096 + (b1 - 128) * 64 + (b2 - 128), rest.drop 2)
        else none
      else none
    | _, _ => none
  else if b0 < 248 then
    match rest.head?, (rest.drop 1).head?, (rest.drop 2).head? with
    | some b1, some b2, some b3 =>
      if (128 ≤ b1 ∧ b1 < 192) ∧ (128 ≤ b2 ∧ b2 < 192) ∧ (128 ≤ b3 ∧ b3 < 192) then
        if 65536 ≤ (b0 - 240) * 262144 + (b1 - 128) * 4096 + (b2 - 128) * 64 + (b3 - 128) ∧
            (b0 - 240) * 262144 + (b1 - 128) * 4096 + (b2 - 128) * 64 + (b3 - 128) < 1114112 then
          some ((b0 - 240) * 262144 + (b1 - 128) * 4096 + (b2 - 128) * 64 + (b3 - 128), rest.drop 3)
        else none
      else none
    | _, _, _ => none
  else none

set_option maxRecDepth 4000 in
theorem utf8DecodeStep_length (b0 : Nat) (rest : List Nat) (c : Nat)
    (r2 : List Nat) (h : utf8DecodeStep b0 rest = some (c, r2)) :
    r2.length ≤ rest.length := by
  unfold utf8DecodeStep at h
  repeat' split at h
  all_goals (try (cases h))
  all_goals simp [List.length_drop]

/-- Fuel-driven strict UTF-8 decoding; the fuel bounds the number of decoded
scalar values, so calling with fuel `l.length` always suffices. -/
def utf8DecodeAux : Nat → List Nat → Option (List Nat)
  | _, [] => some []
  | 0, _ :: _ => none
  | fuel + 1, b0 :: rest =>
    match utf8DecodeStep b0 rest with
    | none => none
    | some (c, rest2) => (utf8DecodeAux fuel rest2).map (c :: ·)

/-- Strict UTF-8 decoding of a byte list into Unicode scalar values; `none`
on malformed input. -/
def utf8Decode (l : List Nat) : Option (List Nat) :=
  utf8DecodeAux l.length l

theorem utf8DecodeAux_fuel (f1 : Nat) : ∀ (f2 : Nat) (l : List Nat),
    l.length ≤ f1 → l.length ≤ f2 → utf8DecodeAux f1 l = utf8DecodeAux f2 l := by
  induction f1 with
  | zero =>
    intro f2 l h1 h2
    match l with
    | [] => cases f2 <;> rfl
  | succ f1 ih =>
    intro f2 l h1 h2
    match l with
    | [] => cases f2 <;> rfl
    | b0 :: rest =>
      match f2 with
      | 0 => simp at h2
      | f2 + 1 =>
        cases hstep : utf8DecodeStep b0 rest with
        | none => simp only [utf8DecodeAux, hstep]
        | some pr =>
          obtain ⟨c, rest2⟩ := pr
          have hlen := utf8DecodeStep_length b0 rest c rest2 hstep
          simp only [utf8DecodeAux, hstep]
          have h2' : rest2.length ≤ f1 := by
            simp only [List.length_cons] at h1
            omega
          have h3' : rest2.length ≤ f2 := by
            simp only [List.length_cons] at h2
            omega
          rw [ih f2 rest2 h2' h3']

/-- Error values standing for the Python exception classes relevant here. -/
inductive PyErr where
  | indexError
  | keyError
  | attributeError
  | unicodeDecodeError
  | stopIteration
  | fileNotFound (f : String)
  | commitError
  deriving DecidableEq

/-- Models `bytes.decode("utf-8")` from `utils.bytes2str`; raises
`UnicodeDecodeError` on malformed input. -/
def bytes2str (b : Bytes) : Except PyErr String :=
  match utf8Decode b with
  | none => .error .unicodeDecodeError
  | some cs => .ok ⟨cs.map Char.ofNat⟩

/-- `bytes2str` as called by `LMDBReader.__getitem__` on `txn.get(label_key)`,
whose result may be `None`: calling `.decode` on `None` raises
`AttributeError`. -/
def bytes2strOpt (b : Option Bytes) : Except PyErr String :=
  match b with
  | none => .error .attributeError
  | some bs => bytes2str bs

theorem utf8Decode_cons_some (b0 : Nat) (rest rest2 : List Nat) (c : Nat)
    (h : utf8DecodeStep b0 rest = some (c, rest2)) :
    utf8Decode (b0 :: rest) = (utf8Decode rest2).map (c :: ·) := by
  unfold utf8Decode
  simp only [List.length_cons, utf8DecodeAux, h]
  have hlen := utf8DecodeStep_length b0 rest c rest2 h
  rw [utf8DecodeAux_fuel rest.length rest2.length rest2 hlen le_rfl]

theorem utf8DecodeStep_enc1 (c : Nat) (hc : c < 128) (rest : List Nat) :
    utf8DecodeStep c rest = some (c, rest) := by
  unfold utf8DecodeStep
  rw [if_pos hc]

theorem utf8DecodeStep_enc2 (c : Nat) (h1 : 128 ≤ c) (h2 : c < 2048) (rest : List Nat) :
    utf8DecodeStep (192 + c / 64) ((128 + c % 64) :: rest) = some (c, rest) := by
  unfold utf8DecodeStep
  rw [if_neg (by omega), if_neg (by omega), if_pos (by omega)]
  simp only [List.head?_cons, List.drop_succ_cons, List.drop_zero]
  rw [if_pos (by omega), if_pos (by omega)]
  have hc : (192 + c / 64 - 192) * 64 + (128 + c % 64 - 128) = c := by omega
  rw [hc]

theorem utf8DecodeStep_enc3 (c : Nat) (h2 : 2048 ≤ c) (h3 : c < 65536)
    (hs : ¬(55296 ≤ c ∧ c < 57344)) (rest : List Nat) :
    utf8DecodeStep (224 + c / 4096) ((128 + c / 64 % 64) :: (128 + c % 64) :: rest) =
      some (c, rest) := by
  unfold utf8DecodeStep
  rw [if_neg (by omega), if_neg (by omega), if_neg (by omega), if_pos (by omega)]
  simp only [List.head?_cons, List.drop_succ_cons, List.drop_zero]
  rw [if_pos (by omega)]
  have hc : (224 + c / 4096 - 224) * 4096 + (128 + c / 64 % 64 - 128) * 64 +
      (128 + c % 64 - 128) = c := by omega
  rw [hc, if_pos (by exact ⟨h2, hs⟩)]

theorem utf8DecodeStep_enc4 (c : Nat) (h3 : 65536 ≤ c) (h4 : c < 1114112)
    (rest : List Nat) :
    utf8DecodeStep (240 + c / 262144)
      ((128 + c / 4096 % 64) :: (128 + c / 64 % 64) :: (128 + c % 64) :: rest) =
      some (c, rest) := by
  unfold utf8DecodeStep
  have hdiv : c / 262144 < 5 := by omega
  rw [if_neg (by omega), if_neg (by omega), if_neg (by omega), if_neg (by omega),
    if_pos (by omega)]
  simp only [List.head?_cons, List.drop_succ_cons, List.drop_zero]
  rw [if_pos (by omega)]
  have hc : (240 + c / 262144 - 240) * 262144 + (128 + c / 4096 % 64 - 128) * 4096 +
      (128 + c / 64 % 64 - 128) * 64 + (128 + c % 64 - 128) = c := by omega
  rw [hc, if_pos (by exact ⟨h3, h4⟩)]

theorem utf8Decode_encodeChar_append (c : Nat) (hv : Nat.isValidChar c)
    (rest : List Nat) :
    utf8Decode (utf8EncodeChar c ++ rest) = (utf8Decode rest).map (c :: ·) := by
  rcases Nat.lt_or_ge c 128 with h1 | h1
  · rw [utf8EncodeChar, if_pos h1]
    show utf8Decode (c :: rest) = _
    exact utf8Decode_cons_some c rest rest c (utf8DecodeStep_enc1 c h1 rest)
  · rcases Nat.lt_or_ge c 2048 with h2 | h2
    · rw [utf8EncodeChar, if_neg (by omega), if_pos h2]
      show utf8Decode ((192 + c / 64) :: (128 + c % 64) :: rest) = _
      exact utf8Decode_cons_some _ _ rest c (utf8DecodeStep_enc2 c h1 h2 rest)
    · rcases Nat.lt_or_ge c 65536 with h3 | h3
      · have hs : ¬(55296 ≤ c ∧ c < 57344) := by
          rcases hv with h | h
          · omega
          · omega
        rw [utf8EncodeChar, if_neg (by omega), if_neg (by omega), if_pos h3]
        show utf8Decode ((224 + c / 4096) :: (128 + c / 64 % 64) :: (128 + c % 64) :: rest) = _
        exact utf8Decode_cons_some _ _ rest c (utf8DecodeStep_enc3 c h2 h3 hs rest)
      · have h4 : c < 1114112 := by
          rcases hv with h | h
          · omega
          · omega
        rw [utf8EncodeChar, if_neg (by omega), if_neg (by omega), if_neg (by omega)]
        show utf8Decode ((240 + c / 262144) :: (128 + c / 4096 % 64) ::
          (128 + c / 64 % 64) :: (128 + c % 64) :: rest) = _
        exact utf8Decode_cons_some _ _ rest c (utf8DecodeStep_enc4 c h3 h4 rest)

theorem char_toNat_isValidChar (ch : Char) : Nat.isValidChar ch.toNat := ch.valid

theorem utf8Decode_str2bytes (cs : List Char) :
    utf8Decode (cs.flatMap (fun ch => utf8EncodeChar ch.toNat)) =
      some (cs.map Char.toNat) := by
  induction cs with
  | nil => rfl
  | cons ch rest ih =>
    rw [List.flatMap_cons, utf8Decode_encodeChar_append ch.toNat (char_toNat_isValidChar ch), ih]
    rfl

/-- C8: the text label codec round-trips: for every string `s`,
`bytes2str (str2bytes s)` returns `s` exactly. -/
theorem label_codec_roundtrip (s : String) : bytes2str (str2bytes s) = .ok s := by
  unfold bytes2str str2bytes
  rw [utf8Decode_str2bytes]
  simp only [List.map_map]
  have : (Char.ofNat ∘ Char.toNat) = id := by
    funext c
    exact Char.ofNat_toNat c
  rw [this, List.map_id]

deriving instance DecidableEq for Except

/-! ### Multi-shard reader (`LMDBReader`)

`LMDBReader.__init__` opens one environment per path, reads
`int(txn.get(b"__counter__", b"0"))` as each length, sums them into
`total_length`, and (for more than one path) precomputes
`cumulative_lengths[i] = sum(lengths[:i])` for `i` in `0..len(paths)`.
`__getitem__` bound-checks the logical index, resolves the owning
environment, and fetches the image and label at the local index. -/

/-- A PIL image handle as produced by `Image.open(io.BytesIO(bytes))`; the
payload is kept opaque. -/
structure Pil where
  payload : Bytes
  deriving DecidableEq

/-- Models `utils.bytes2pil`. -/
def bytes2pil (b : Bytes) : Pil := ⟨b⟩

/-- The length the reader attributes to one shard:
`int(txn.get(b"__counter__", b"0"))`. -/
def shardLen (s : Store) : Nat :=
  pyIntB ((s Key.counterKey).getD zeroBytes)

/-- `[sum(lengths[:i]) for i in range(len(lengths) + 1)]`. -/
def cumLengths (lengths : List Nat) : List Nat :=
  (List.range (lengths.length + 1)).map (fun i => (lengths.take i).sum)

/-- `next(i for i in range(len(cum) - 1) if cum[i] <= idx < cum[i + 1])`:
the first window of the cumulative list containing `idx`. -/
def resolveShard : List Nat → Nat → Option Nat
  | c0 :: c1 :: rest, idx =>
    if c0 ≤ idx ∧ idx < c1 then some 0
    else (resolveShard (c1 :: rest) idx).map (· + 1)
  | _, _ => none

/-- The body of `LMDBReader.__getitem__` after shard resolution: fetch
`image-<local>` and `label-<local>`; raise `KeyError` if the image is
absent; otherwise build the `(bytes2pil, bytes2str)` pair (a `None` label
makes `bytes2str` raise `AttributeError`). -/
def envGet (env : Store) (localIdx : Nat) : Except PyErr (Pil × String) :=
  match env (Key.image localIdx) with
  | none => .error .keyError
  | some imageBin =>
    match bytes2strOpt (env (Key.label localIdx)) with
    | .error e => .error e
    | .ok lbl => .ok (bytes2pil imageBin, lbl)

/-- `len(reader)`: the precomputed `total_length`. -/
def readerLen (envs : List Store) : Nat :=
  (envs.map shardLen).sum

/-- The in-range part of `LMDBReader.__getitem__`: a single environment is
used directly; otherwise the owning environment is found through the
cumulative lengths and the local index is the logical index minus the
cumulative offset. -/
def readerGetBody (envs : List Store) (i : Nat) : Except PyErr (Pil × String) :=
  match envs with
  | [env] => envGet env i
  | _ =>
    match resolveShard (cumLengths (envs.map shardLen)) i with
    | none => .error .stopIteration
    | some k =>
      match envs.get? k with
      | none => .error .indexError
      | some env => envGet env (i - (cumLengths (envs.map shardLen)).getD k 0)

/-- `LMDBReader.__getitem__` over the opened environments. -/
def readerGet (envs : List Store) (idx : Int) : Except PyErr (Pil × String) :=
  if idx < 0 ∨ (readerLen envs : Int) ≤ idx then .error .indexError
  else readerGetBody envs idx.toNat

/-! ### Shard well-formedness -/

/-- Image and label entries of a shard holding exactly the records
`0 .. c-1`: every index below `c` has an image payload and a UTF-8 encoded
label, and no image key exists at or above `c`. -/
def PairsWF (s : Store) (c : Nat) : Prop :=
  (∀ i, i < c →
    (∃ b, s (Key.image i) = some b) ∧ (∃ l, s (Key.label i) = some (str2bytes l))) ∧
  (∀ i, c ≤ i → s (Key.image i) = none)

/-- A shard whose persisted counter is `c` and whose records `0 .. c-1` are
all present and well formed. -/
def StoreWF (s : Store) (c : Nat) : Prop :=
  s Key.counterKey = some (encCounter c) ∧ PairsWF s c

theorem shardLen_of_counter (s : Store) (n : Nat)
    (h : s Key.counterKey = some (encCounter n)) : shardLen s = n := by
  simp [shardLen, h, pyIntB_encCounter]

theorem bytes2str_str2bytes (s : String) : bytes2str (str2bytes s) = .ok s := by
  unfold bytes2str str2bytes
  rw [utf8Decode_str2bytes]
  simp only [List.map_map]
  have hco : (Char.ofNat ∘ Char.toNat) = id := by
    funext c
    exact Char.ofNat_toNat c
  rw [hco, List.map_id]

theorem envGet_ok (S : Store) (c idx : Nat) (h : PairsWF S c) (hidx : idx < c) :
    ∃ b l, envGet S idx = .ok (bytes2pil b, l) := by
  obtain ⟨⟨b, hb⟩, ⟨l, hl⟩⟩ := h.1 idx hidx
  refine ⟨b, l, ?_⟩
  unfold envGet
  rw [hb, hl]
  show (match bytes2strOpt (some (str2bytes l)) with
    | .error e => Except.error e
    | .ok lbl => Except.ok (bytes2pil b, lbl)) = _
  have : bytes2strOpt (some (str2bytes l)) = .ok l := bytes2str_str2bytes l
  rw [this]

theorem readerLen_single (S : Store) : readerLen [S] = shardLen S := by
  simp [readerLen]

theorem readerGet_single_in_range (S : Store) (idx : Nat)
    (hidx : idx < shardLen S) :
    readerGet [S] (idx : Int) = envGet S idx := by
  unfold readerGet
  rw [if_neg]
  · rw [readerGetBody]
    simp
  · rw [readerLen_single]
    omega

theorem readerGet_single_ok (S : Store) (n : Nat) (h : StoreWF S n) (idx : Nat)
    (hidx : idx < n) :
    ∃ b l, readerGet [S] (idx : Int) = .ok (bytes2pil b, l) := by
  have hs : shardLen S = n := shardLen_of_counter S n h.1
  rw [readerGet_single_in_range S idx (by omega)]
  exact envGet_ok S n idx h.2 hidx

/-- C9 (implicit): `LMDBReader.__getitem__` checks absence only of the image
key; at an in-range index whose image is present but whose label is absent,
the call does not raise the documented not-found error (`KeyError`) — it
fails with `AttributeError` while `bytes2str` decodes the absent (`None`)
label value. -/
theorem reader_label_absent (S : Store) (n idx : Nat)
    (hctr : S Key.counterKey = some (encCounter n)) (hidx : idx < n)
    (himg : ∃ b, S (Key.image idx) = some b)
    (hlbl : S (Key.label idx) = none) :
    readerGet [S] (idx : Int) = .error .attributeError ∧
    readerGet [S] (idx : Int) ≠ .error .keyError := by
  obtain ⟨b, hb⟩ := himg
  have hs : shardLen S = n := shardLen_of_counter S n hctr
  rw [readerGet_single_in_range S idx (by omega)]
  unfold envGet
  rw [hb, hlbl]
  constructor
  · rfl
  · show Except.error PyErr.attributeError ≠ Except.error PyErr.keyError
    simp

/-- A concrete store for the `reader_label_absent` witness: counter 1,
image 0 present, label 0 absent. -/
def labelAbsentStore : Store :=
  put (put emptyStore Key.counterKey (encCounter 1)) (Key.image 0) [7]

/-- Witness for `reader_label_absent` at the store with a missing label. -/
theorem reader_label_absent_witness :
    labelAbsentStore Key.counterKey = some (encCounter 1) ∧
    (0 : Nat) < 1 ∧
    (∃ b, labelAbsentStore (Key.image 0) = some b) ∧
    labelAbsentStore (Key.label 0) = none ∧
    (readerGet [labelAbsentStore] ((0 : Nat) : Int) = .error .attributeError ∧
      readerGet [labelAbsentStore] ((0 : Nat) : Int) ≠ .error .keyError) :=
  ⟨by decide, by decide, ⟨[7], by decide⟩, by decide,
    reader_label_absent labelAbsentStore 1 0 (by decide) (by decide)
      ⟨[7], by decide⟩ (by decide)⟩

theorem bytes2strOpt_ne_indexError (b : Option Bytes) :
    bytes2strOpt b ≠ .error .indexError := by
  unfold bytes2strOpt bytes2str
  match b with
  | none => simp
  | some bs =>
    cases hd : utf8Decode bs with
    | none => simp [hd]
    | some cs => simp [hd]

theorem envGet_ne_indexError (e : Store) (i : Nat) :
    envGet e i ≠ .error .indexError := by
  unfold envGet
  match e (Key.image i) with
  | none => simp
  | some imageBin =>
    have hb := bytes2strOpt_ne_indexError (e (Key.label i))
    match heq : bytes2strOpt (e (Key.label i)) with
    | .error err =>
      rw [heq] at hb
      simpa using hb
    | .ok lbl => simp

theorem resolveShard_bound : ∀ (cum : List Nat) (idx k : Nat),
    resolveShard cum idx = some k → k + 1 < cum.length
  | c0 :: c1 :: rest, idx, k, h => by
    rw [resolveShard] at h
    split at h
    · cases h
      simp
    · cases hr : resolveShard (c1 :: rest) idx with
      | none => rw [hr] at h; simp at h
      | some k0 =>
        rw [hr] at h
        simp at h
        have := resolveShard_bound (c1 :: rest) idx k0 hr
        simp only [List.length_cons] at this ⊢
        omega
  | [], _, _, h => by exact Option.noConfusion h
  | [_], _, _, h => by exact Option.noConfusion h

theorem cumLengths_length (lengths : List Nat) :
    (cumLengths lengths).length = lengths.length + 1 := by
  simp [cumLengths]

/-- `LMDBReader.__getitem__` raises `IndexError` exactly on indices outside
`[0, total_length)`; in-range indices may fail differently but never with
`IndexError`. -/
theorem readerGet_indexError_iff (envs : List Store) (idx : Int) :
    readerGet envs idx = .error .indexError ↔
      (idx < 0 ∨ (readerLen envs : Int) ≤ idx) := by
  constructor
  · intro h
    by_contra hc
    unfold readerGet at h
    rw [if_neg hc] at h
    match envs, h with
    | [], h =>
      refine hc ?_
      simp [readerLen]
      omega
    | [env], h =>
      rw [readerGetBody] at h
      exact envGet_ne_indexError env idx.toNat h
    | e1 :: e2 :: rest, h =>
      revert h
      cases hres : resolveShard (cumLengths ((e1 :: e2 :: rest).map shardLen)) idx.toNat with
      | none =>
        intro h
        simp only [readerGetBody, hres] at h
        simp at h
      | some k =>
        intro h
        have hk := resolveShard_bound _ _ _ hres
        rw [cumLengths_length] at hk
        simp only [List.length_map, List.length_cons] at hk
        have hklt : k < (e1 :: e2 :: rest).length := by
          simp only [List.length_cons]
          omega
        simp only [readerGetBody, hres, List.get?_eq_get hklt] at h
        exact envGet_ne_indexError _ _ h
  · intro h
    unfold readerGet
    rw [if_pos h]

/-- A store satisfying the literal counter invariant (`counter` equals the
number of distinct present `image-*` keys) but with the label of record 0
absent: counter 1, `image-0` present, `label-0` missing. -/
def cexStore : Store :=
  put (put emptyStore Key.counterKey (encCounter 1)) (Key.image 0) [9]

/-- C6 counterexample: on a shard satisfying only the counter invariant,
`reader.get(length()-1)` need not succeed — here it raises
`AttributeError` because the label key is absent.  The success clause of
the claim therefore requires more than the counter invariant. -/
theorem reader_boundary_cex :
    Set.ncard {i : Nat | (cexStore (Key.image i)).isSome} = shardLen cexStore ∧
    readerGet [cexStore] ((readerLen [cexStore] : Int) - 1) =
      .error .attributeError := by
  constructor
  · have hset : {i : Nat | (cexStore (Key.image i)).isSome} = {0} := by
      ext i
      simp only [Set.mem_setOf_eq, Set.mem_singleton_iff, cexStore, put, emptyStore]
      constructor
      · intro hi
        by_contra hne
        simp [Key.image.injEq, hne] at hi
      · intro hi
        subst hi
        simp
    rw [hset, Set.ncard_singleton]
    decide
  · decide

/-- A well-formed one-record shard: counter 1, image 0 and a UTF-8 label
both present. -/
def wfStore1 : Store :=
  put (put (put emptyStore Key.counterKey (encCounter 1)) (Key.image 0) [3])
    (Key.label 0) (str2bytes "a")

theorem storeWF_wfStore1 : StoreWF wfStore1 1 := by
  refine ⟨by decide, ?_, ?_⟩
  · intro i hi
    have hi0 : i = 0 := by omega
    subst hi0
    exact ⟨⟨[3], by decide⟩, ⟨"a", by decide⟩⟩
  · intro i hi
    simp only [wfStore1, put, emptyStore]
    have h1 : Key.image i ≠ Key.label 0 := by simp
    have h2 : Key.image i ≠ Key.image 0 := by
      simp only [ne_eq, Key.image.injEq]
      omega
    have h3 : Key.image i ≠ Key.counterKey := by simp
    simp [h1, h2, h3]

/-- C6 amended: `reader.get` fails with `IndexError` exactly when the
logical index is `< 0` or `≥ length()`; `get(-1)` and `get(length())` fail
with `IndexError`; and `get(length()-1)` succeeds on a shard whose records
are well formed (image present and label a valid UTF-8 encoding for every
index below the counter), strengthening the bare counter invariant, which
alone does not guarantee success. -/
theorem reader_boundary (S : Store) (n : Nat) (h : StoreWF S n) (hn : 1 ≤ n) :
    readerGet [S] (-1) = .error .indexError ∧
    readerGet [S] (n : Int) = .error .indexError ∧
    (∃ r, readerGet [S] ((n : Int) - 1) = .ok r) ∧
    (∀ idx : Int,
      readerGet [S] idx = .error .indexError ↔ (idx < 0 ∨ (n : Int) ≤ idx)) := by
  have hlen : readerLen [S] = n := by
    rw [readerLen_single]
    exact shardLen_of_counter S n h.1
  have hiff : ∀ idx : Int,
      readerGet [S] idx = .error .indexError ↔ (idx < 0 ∨ (n : Int) ≤ idx) := by
    intro idx
    rw [readerGet_indexError_iff, hlen]
  refine ⟨?_, ?_, ?_, hiff⟩
  · exact (hiff (-1)).mpr (by omega)
  · exact (hiff (n : Int)).mpr (by omega)
  · have hcast : ((n : Int) - 1) = ((n - 1 : Nat) : Int) := by omega
    rw [hcast]
    obtain ⟨b, l, hb⟩ := readerGet_single_ok S n h (n - 1) (by omega)
    exact ⟨(bytes2pil b, l), hb⟩

/-- Witness for `reader_boundary` on the one-record shard `wfStore1`. -/
theorem reader_boundary_witness :
    StoreWF wfStore1 1 ∧ 1 ≤ 1 ∧
    readerGet [wfStore1] (-1) = .error .indexError ∧
    readerGet [wfStore1] ((1 : Nat) : Int) = .error .indexError ∧
    (∃ r, readerGet [wfStore1] (((1 : Nat) : Int) - 1) = .ok r) ∧
    (readerGet [wfStore1] (5 : Int) = .error .indexError ↔
      ((5 : Int) < 0 ∨ ((1 : Nat) : Int) ≤ 5)) :=
  ⟨storeWF_wfStore1, le_rfl,
    (reader_boundary wfStore1 1 storeWF_wfStore1 le_rfl).1,
    (reader_boundary wfStore1 1 storeWF_wfStore1 le_rfl).2.1,
    (reader_boundary wfStore1 1 storeWF_wfStore1 le_rfl).2.2.1,
    (reader_boundary wfStore1 1 storeWF_wfStore1 le_rfl).2.2.2 5⟩

theorem cumLengths_pair (a b : Nat) : cumLengths [a, b] = [0, a, a + b] := by
  simp [cumLengths, List.range_succ]

theorem resolveShard_pair (a b k : Nat) (hk : k < b) :
    resolveShard [0, a, a + b] (a + k) = some 1 := by
  rw [resolveShard, if_neg (by omega), resolveShard, if_pos (by omega)]
  rfl

/-- C4: two shards `A` and `B` opened together, in that order, as one reader
give `length = shardLen A + shardLen B`, and every logical index `a + k`
with `k < shardLen B` resolves to shard `B` at local index `k`, returning
exactly what reading `k` from `B` alone returns. -/
theorem multi_shard_concat (A B : Store) (k : Nat) (hk : k < shardLen B) :
    readerLen [A, B] = shardLen A + shardLen B ∧
    readerGet [A, B] ((shardLen A : Int) + (k : Int)) = readerGet [B] (k : Int) := by
  have hlen : readerLen [A, B] = shardLen A + shardLen B := by
    simp [readerLen]
  refine ⟨hlen, ?_⟩
  have hcast : ((shardLen A : Int) + (k : Int)) = ((shardLen A + k : Nat) : Int) := by
    push_cast
    ring
  rw [hcast, readerGet_single_in_range B k hk]
  unfold readerGet
  rw [if_neg (by rw [hlen]; push_cast; omega)]
  have htn : ((shardLen A + k : Nat) : Int).toNat = shardLen A + k :=
    Int.toNat_natCast _
  rw [htn]
  have hsub : shardLen A + k - shardLen A = k := by omega
  simp only [readerGetBody, List.map_cons, List.map_nil, cumLengths_pair,
    resolveShard_pair (shardLen A) (shardLen B) k hk, List.get?_cons_succ,
    List.get?_cons_zero, List.getD, Option.getD_some, hsub]

/-- A one-record shard for witnesses: counter 1. -/
def shardA : Store :=
  put (put (put emptyStore Key.counterKey (encCounter 1)) (Key.image 0) [1])
    (Key.label 0) (str2bytes "x")

/-- A two-record shard for witnesses: counter 2. -/
def shardB : Store :=
  put (put (put (put (put emptyStore Key.counterKey (encCounter 2))
    (Key.image 0) [2]) (Key.label 0) (str2bytes "y"))
    (Key.image 1) [3]) (Key.label 1) (str2bytes "z")

/-- Witness for `multi_shard_concat` with `k = 1` on concrete shards. -/
theorem multi_shard_concat_witness :
    1 < shardLen shardB ∧
    (readerLen [shardA, shardB] = shardLen shardA + shardLen shardB ∧
      readerGet [shardA, shardB] ((shardLen shardA : Int) + ((1 : Nat) : Int)) =
        readerGet [shardB] ((1 : Nat) : Int)) :=
  ⟨by decide, multi_shard_concat shardA shardB 1 (by decide)⟩

/-! ### Write pipeline (`LMDBWriter`)

The coordinator of `create_dataset` consumes processed items from the
result queue one at a time (in whatever order the workers finish), so a run
is modelled as a fold over the serialized list of consumed items.  For each
item it stages the `image-<counter>` and `label-<counter>` entries in the
cache dictionary, appends the original filename to `lmdb.lst`, increments
the in-memory counter, and flushes the cache through `_write_cache`
whenever `len(cache) >= batch_size`; any remaining cache is flushed once
the queue drains, in the `finally` block. -/

/-- One processed item as put on the output queue by a worker:
`{image_bin, image_path, label}`. -/
structure PItem where
  imageBin : Bytes
  imagePath : String
  label : String
  deriving DecidableEq

/-- The coordinator state: the committed store, the staged cache (a dict
keyed by full store keys, here an ordered list of distinct keys), the
manifest file contents, and the in-memory counter. -/
structure WState where
  store : Store
  cache : List (Key × Bytes)
  manifest : List String
  counter : Nat

/-- The effect of a successful `_write_cache(cache)`: one transaction that
puts every cache entry and then the counter metadata key. -/
def commitBatchApply (s : Store) (cache : List (Key × Bytes)) (ctr : Nat) : Store :=
  put (cache.foldl (fun t e => put t e.1 e.2) s) Key.counterKey (encCounter ctr)

/-- One iteration of the coordinator loop of `create_dataset`. -/
def stepItem (batchSize : Nat) (st : WState) (p : PItem) : WState :=
  let cache2 := st.cache ++
    [(Key.image st.counter, p.imageBin), (Key.label st.counter, str2bytes p.label)]
  let manifest2 := st.manifest ++ [p.imagePath]
  let counter2 := st.counter + 1
  if batchSize ≤ cache2.length then
    { store := commitBatchApply st.store cache2 counter2
      cache := []
      manifest := manifest2
      counter := counter2 }
  else
    { store := st.store, cache := cache2, manifest := manifest2, counter := counter2 }

/-- `create_dataset` run to completion on the serialized list of processed
items: fold the coordinator step, then flush any non-empty remaining cache
(`finally: if cache: self._write_cache(cache)`). -/
def createDataset (batchSize : Nat) (items : List PItem) (st : WState) : WState :=
  let st2 := items.foldl (stepItem batchSize) st
  if st2.cache.isEmpty then st2
  else
    { store := commitBatchApply st2.store st2.cache st2.counter
      cache := []
      manifest := st2.manifest
      counter := st2.counter }

/-- The cache contents staged for items `ps` starting at index `c`. -/
def cacheFor (c : Nat) : List PItem → List (Key × Bytes)
  | [] => []
  | p :: rest =>
    (Key.image c, p.imageBin) :: (Key.label c, str2bytes p.label) :: cacheFor (c + 1) rest

theorem cacheFor_append (c : Nat) (ps : List PItem) (p : PItem) :
    cacheFor c (ps ++ [p]) =
      cacheFor c ps ++
        [(Key.image (c + ps.length), p.imageBin),
         (Key.label (c + ps.length), str2bytes p.label)] := by
  induction ps generalizing c with
  | nil => simp [cacheFor]
  | cons q qs ih =>
    simp only [List.cons_append, cacheFor, List.append_eq]
    rw [ih]
    simp only [List.length_cons]
    have harith : c + 1 + qs.length = c + (qs.length + 1) := by omega
    rw [harith]

theorem cacheFor_eq_nil (c : Nat) (ps : List PItem) (h : cacheFor c ps = []) :
    ps = [] := by
  cases ps with
  | nil => rfl
  | cons p rest => simp [cacheFor] at h

theorem pairsWF_record_put (s : Store) (c : Nat) (p : PItem) (h : PairsWF s c) :
    PairsWF (put (put s (Key.image c) p.imageBin) (Key.label c) (str2bytes p.label))
      (c + 1) := by
  constructor
  · intro i hi
    by_cases hic : i = c
    · subst hic
      constructor
      · refine ⟨p.imageBin, ?_⟩
        rw [put_other _ _ _ _ (by simp), put_same]
      · exact ⟨p.label, put_same _ _ _⟩
    · have hi2 : i < c := by omega
      obtain ⟨⟨b, hb⟩, ⟨l, hl⟩⟩ := h.1 i hi2
      constructor
      · refine ⟨b, ?_⟩
        rw [put_other _ _ _ _ (by simp),
          put_other _ _ _ _ (by simp [Key.image.injEq]; omega), hb]
      · refine ⟨l, ?_⟩
        rw [put_other _ _ _ _ (by simp [Key.label.injEq]; omega),
          put_other _ _ _ _ (by simp), hl]
  · intro i hi
    rw [put_other _ _ _ _ (by simp),
      put_other _ _ _ _ (by simp [Key.image.injEq]; omega)]
    exact h.2 i (by omega)

theorem pairsWF_commit_core (ps : List PItem) : ∀ (s : Store) (c : Nat),
    PairsWF s c →
    PairsWF ((cacheFor c ps).foldl (fun t e => put t e.1 e.2) s) (c + ps.length) := by
  induction ps with
  | nil =>
    intro s c h
    simpa [cacheFor] using h
  | cons p rest ih =>
    intro s c h
    simp only [cacheFor, List.foldl_cons, List.length_cons]
    have h2 := pairsWF_record_put s c p h
    have h3 := ih _ (c + 1) h2
    have harith : c + 1 + rest.length = c + (rest.length + 1) := by omega
    rw [harith] at h3
    exact h3

theorem pairsWF_put_counter (s : Store) (c n : Nat) (h : PairsWF s c) :
    PairsWF (put s Key.counterKey (encCounter n)) c := by
  constructor
  · intro i hi
    obtain ⟨⟨b, hb⟩, ⟨l, hl⟩⟩ := h.1 i hi
    exact ⟨⟨b, by rw [put_other _ _ _ _ (by simp), hb]⟩,
      ⟨l, by rw [put_other _ _ _ _ (by simp), hl]⟩⟩
  · intro i hi
    rw [put_other _ _ _ _ (by simp)]
    exact h.2 i hi

theorem storeWF_commit (s : Store) (c : Nat) (ps : List PItem) (h : PairsWF s c) :
    StoreWF (commitBatchApply s (cacheFor c ps) (c + ps.length)) (c + ps.length) :=
  ⟨put_same _ _ _, pairsWF_put_counter _ _ _ (pairsWF_commit_core ps s c h)⟩

/-- The invariant maintained by the coordinator loop: the committed store
holds exactly the records below some committed count `pc` with that counter
persisted, the cache stages the records from `pc` up to the in-memory
counter, and the in-memory counter equals `pc` plus the staged items. -/
def CoordInv (st : WState) : Prop :=
  ∃ pc ps, PairsWF st.store pc ∧
    st.store Key.counterKey = some (encCounter pc) ∧
    st.cache = cacheFor pc ps ∧ st.counter = pc + ps.length

theorem stepItem_inv (bs : Nat) (st : WState) (p : PItem) (h : CoordInv st) :
    CoordInv (stepItem bs st p) ∧
    (stepItem bs st p).counter = st.counter + 1 ∧
    (stepItem bs st p).manifest = st.manifest ++ [p.imagePath] := by
  obtain ⟨pc, ps, hwf, hctr, hcache, hcnt⟩ := h
  have hcache2 : st.cache ++
      [(Key.image st.counter, p.imageBin), (Key.label st.counter, str2bytes p.label)] =
      cacheFor pc (ps ++ [p]) := by
    rw [hcache, hcnt, cacheFor_append]
  unfold stepItem
  by_cases hflush : bs ≤ (st.cache ++
      [(Key.image st.counter, p.imageBin), (Key.label st.counter, str2bytes p.label)]).length
  · rw [if_pos hflush]
    have harith : st.counter + 1 = pc + (ps ++ [p]).length := by
      simp only [List.length_append, List.length_cons, List.length_nil]
      omega
    refine ⟨⟨pc + (ps ++ [p]).length, [], ?_, ?_, by simp [cacheFor], ?_⟩, rfl, rfl⟩
    · show PairsWF (commitBatchApply st.store (st.cache ++
        [(Key.image st.counter, p.imageBin), (Key.label st.counter, str2bytes p.label)])
        (st.counter + 1)) (pc + (ps ++ [p]).length)
      rw [hcache2, harith]
      exact (storeWF_commit st.store pc (ps ++ [p]) hwf).2
    · show commitBatchApply st.store (st.cache ++
        [(Key.image st.counter, p.imageBin), (Key.label st.counter, str2bytes p.label)])
        (st.counter + 1) Key.counterKey = some (encCounter (pc + (ps ++ [p]).length))
      rw [hcache2, harith]
      exact (storeWF_commit st.store pc (ps ++ [p]) hwf).1
    · show st.counter + 1 = pc + (ps ++ [p]).length + [].length
      simp only [List.length_nil, Nat.add_zero]
      exact harith
  · rw [if_neg hflush]
    refine ⟨⟨pc, ps ++ [p], hwf, hctr, hcache2, ?_⟩, rfl, rfl⟩
    show st.counter + 1 = pc + (ps ++ [p]).length
    simp only [List.length_append, List.length_cons, List.length_nil]
    omega

theorem foldl_inv (bs : Nat) (items : List PItem) : ∀ st : WState, CoordInv st →
    CoordInv (items.foldl (stepItem bs) st) ∧
    (items.foldl (stepItem bs) st).counter = st.counter + items.length ∧
    (items.foldl (stepItem bs) st).manifest =
      st.manifest ++ items.map (fun p => p.imagePath) := by
  induction items with
  | nil =>
    intro st h
    exact ⟨h, rfl, by simp⟩
  | cons p rest ih =>
    intro st h
    obtain ⟨h1, h2, h3⟩ := stepItem_inv bs st p h
    obtain ⟨h4, h5, h6⟩ := ih (stepItem bs st p) h1
    refine ⟨h4, ?_, ?_⟩
    · simp only [List.foldl_cons, List.length_cons] at h5 ⊢
      omega
    · simp only [List.foldl_cons] at h6 ⊢
      rw [h6, h3, List.map_cons, List.append_assoc]
      rfl

/-- Running `create_dataset` to completion from a coordinator state whose
store and cache satisfy the invariant leaves a well-formed shard whose
count advanced by the number of consumed items, with the manifest extended
by their filenames. -/
theorem createDataset_spec (bs : Nat) (items : List PItem) (st : WState)
    (h : CoordInv st) :
    StoreWF (createDataset bs items st).store (st.counter + items.length) ∧
    (createDataset bs items st).counter = st.counter + items.length ∧
    (createDataset bs items st).manifest =
      st.manifest ++ items.map (fun p => p.imagePath) := by
  obtain ⟨hinv, hcnt, hman⟩ := foldl_inv bs items st h
  obtain ⟨pc, ps, hwf, hctr, hcache, hcnt2⟩ := hinv
  have htot : pc + ps.length = st.counter + items.length := by omega
  unfold createDataset
  by_cases hemp : (items.foldl (stepItem bs) st).cache.isEmpty
  · rw [if_pos hemp]
    have hps : ps = [] := cacheFor_eq_nil pc ps (by rw [← hcache]; exact List.isEmpty_iff.mp hemp)
    subst hps
    simp only [List.length_nil, Nat.add_zero] at htot
    refine ⟨⟨?_, ?_⟩, hcnt, hman⟩
    · rw [hctr, htot]
    · rw [← htot]
      exact hwf
  · rw [if_neg hemp]
    refine ⟨?_, hcnt, hman⟩
    show StoreWF (commitBatchApply (items.foldl (stepItem bs) st).store
      (items.foldl (stepItem bs) st).cache (items.foldl (stepItem bs) st).counter)
      (st.counter + items.length)
    rw [hcache, hcnt2, ← htot]
    exact storeWF_commit _ pc ps hwf

/-- The store right after a fresh (non-resume) `LMDBWriter.__init__`:
only `__counter__ = b"0"` is present. -/
def freshStore : Store := put emptyStore Key.counterKey zeroBytes

theorem storeWF_fresh : StoreWF freshStore 0 := by
  refine ⟨?_, ?_, ?_⟩
  · show put emptyStore Key.counterKey zeroBytes Key.counterKey = some (encCounter 0)
    rw [put_same, encCounter_zero]
  · intro i hi
    omega
  · intro i hi
    show put emptyStore Key.counterKey zeroBytes (Key.image i) = none
    rw [put_other _ _ _ _ (by simp)]
    rfl

/-- C1: for every shard produced by running `create_dataset` to completion
from a well-formed starting state, the persisted counter equals the number
of distinct present `image-*` keys (the set of present image indices is
exactly `[0, c0 + n)`), and in particular the persisted record count never
exceeds the number of stored image entries. -/
theorem create_dataset_counter_invariant (bs c0 : Nat) (s : Store)
    (man : List String) (items : List PItem) (h : StoreWF s c0) :
    (createDataset bs items ⟨s, [], man, c0⟩).store Key.counterKey =
      some (encCounter (c0 + items.length)) ∧
    {i : Nat | ((createDataset bs items ⟨s, [], man, c0⟩).store (Key.image i)).isSome} =
      Set.Iio (c0 + items.length) ∧
    Set.ncard {i : Nat |
        ((createDataset bs items ⟨s, [], man, c0⟩).store (Key.image i)).isSome} =
      shardLen (createDataset bs items ⟨s, [], man, c0⟩).store ∧
    shardLen (createDataset bs items ⟨s, [], man, c0⟩).store ≤
      Set.ncard {i : Nat |
        ((createDataset bs items ⟨s, [], man, c0⟩).store (Key.image i)).isSome} := by
  have hcoord : CoordInv ⟨s, [], man, c0⟩ := ⟨c0, [], h.2, h.1, rfl, rfl⟩
  obtain ⟨hwf0, hcnt, hman⟩ := createDataset_spec bs items ⟨s, [], man, c0⟩ hcoord
  have hwf : StoreWF (createDataset bs items ⟨s, [], man, c0⟩).store
      (c0 + items.length) := hwf0
  have hset : {i : Nat |
      ((createDataset bs items ⟨s, [], man, c0⟩).store (Key.image i)).isSome} =
      Set.Iio (c0 + items.length) := by
    ext i
    simp only [Set.mem_setOf_eq, Set.mem_Iio]
    constructor
    · intro hi
      by_contra hni
      rw [hwf.2.2 i (by omega)] at hi
      simp at hi
    · intro hi
      obtain ⟨⟨b, hb⟩, _⟩ := hwf.2.1 i hi
      rw [hb]
      rfl
  have hlen : shardLen (createDataset bs items ⟨s, [], man, c0⟩).store =
      c0 + items.length := shardLen_of_counter _ _ hwf.1
  have hncard : Set.ncard (Set.Iio (c0 + items.length)) = c0 + items.length := by
    rw [← Finset.coe_Iio, Set.ncard_coe_Finset, Nat.card_Iio]
  refine ⟨hwf.1, hset, ?_, ?_⟩
  · rw [hset, hlen, hncard]
  · rw [hset, hlen, hncard]

/-- The single processed item used by concrete writer witnesses. -/
def witItems : List PItem := [⟨[7], "a", "x"⟩]

/-- Witness for `create_dataset_counter_invariant` on a fresh store and one
item. -/
theorem create_dataset_counter_invariant_witness :
    StoreWF freshStore 0 ∧
    ((createDataset 2 witItems ⟨freshStore, [], [], 0⟩).store Key.counterKey =
      some (encCounter (0 + witItems.length)) ∧
    {i : Nat | ((createDataset 2 witItems ⟨freshStore, [], [], 0⟩).store (Key.image i)).isSome} =
      Set.Iio (0 + witItems.length) ∧
    Set.ncard {i : Nat |
        ((createDataset 2 witItems ⟨freshStore, [], [], 0⟩).store (Key.image i)).isSome} =
      shardLen (createDataset 2 witItems ⟨freshStore, [], [], 0⟩).store ∧
    shardLen (createDataset 2 witItems ⟨freshStore, [], [], 0⟩).store ≤
      Set.ncard {i : Nat |
        ((createDataset 2 witItems ⟨freshStore, [], [], 0⟩).store (Key.image i)).isSome}) :=
  ⟨storeWF_fresh, create_dataset_counter_invariant 2 0 freshStore [] witItems storeWF_fresh⟩

/-! ### Transactional batch commit (`LMDBWriter._write_cache`) -/

/-- Runs the puts of one write transaction in order; `failIdx = some i`
makes the `i`-th put raise, modelling an arbitrary store failure inside
the `with env.begin(write=True)` block. -/
def txnGo (failIdx : Option Nat) : Nat → Store → List (Key × Bytes) → Option Store
  | _, pending, [] => some pending
  | i, pending, op :: rest =>
    if failIdx = some i then none
    else txnGo failIdx (i + 1) (put pending op.1 op.2) rest

/-- `LMDBWriter._write_cache`: all cache entries and then the updated
counter key are put inside one transaction; normal exit commits, an
exception aborts the whole transaction (the previous store stays visible)
and is re-raised after logging.  Returns the call outcome together with
the store visible afterwards. -/
def writeCache (failIdx : Option Nat) (s : Store) (cache : List (Key × Bytes))
    (ctr : Nat) : Except PyErr Store × Store :=
  match txnGo failIdx 0 s (cache ++ [(Key.counterKey, encCounter ctr)]) with
  | some committed => (.ok committed, committed)
  | none => (.error .commitError, s)

theorem txnGo_some (failIdx : Option Nat) : ∀ (ops : List (Key × Bytes)) (i : Nat)
    (s t : Store), txnGo failIdx i s ops = some t →
    t = ops.foldl (fun acc op => put acc op.1 op.2) s := by
  intro ops
  induction ops with
  | nil =>
    intro i s t h
    rw [txnGo] at h
    injection h with h2
    rw [← h2]
    rfl
  | cons op rest ih =>
    intro i s t h
    rw [txnGo] at h
    split at h
    · exact Option.noConfusion h
    · rw [List.foldl_cons]
      exact ih (i + 1) (put s op.1 op.2) t h

/-- C2: `_write_cache` is atomic: either the whole batch (every cache entry
plus the updated counter key) becomes visible, or the transaction fails and
the store visible afterwards is exactly the previous one — no partially
applied batch is ever observable, whichever put fails. -/
theorem write_cache_atomic (failIdx : Option Nat) (s : Store)
    (cache : List (Key × Bytes)) (ctr : Nat) :
    writeCache failIdx s cache ctr =
      (.ok (commitBatchApply s cache ctr), commitBatchApply s cache ctr) ∨
    writeCache failIdx s cache ctr = (.error .commitError, s) := by
  unfold writeCache
  cases htx : txnGo failIdx 0 s (cache ++ [(Key.counterKey, encCounter ctr)]) with
  | none => right; rfl
  | some t =>
    left
    have ht := txnGo_some failIdx _ 0 s t htx
    rw [List.foldl_append] at ht
    have h2 : t = commitBatchApply s cache ctr := ht
    rw [h2]

/-! ### Writer initialisation (`LMDBWriter.__init__`) -/

/-- The on-disk state of a shard directory as seen by `LMDBWriter.__init__`:
the optional store behind `data.mdb`, whether `lock.mdb` exists, and the
optional contents of the manifest file `lmdb.lst`. -/
structure FS where
  data : Option Store
  lock : Bool
  lst : Option (List String)

/-- The writer state right after `LMDBWriter.__init__`. -/
structure WriterInit where
  store : Store
  counter : Nat
  manifest : List String

/-- Opening the LMDB environment and reading or initialising the counter
(the tail of `LMDBWriter.__init__`): on resume the counter is loaded with
`int(txn.get(b"__counter__", b"0"))` and the manifest file keeps its
contents (it is later opened in append mode); otherwise the counter starts
at 0 and `__counter__ = b"0"` is put. -/
def openEnv (resume : Bool) (fs : FS) : WriterInit :=
  let store0 := fs.data.getD emptyStore
  if resume then
    { store := store0
      counter := pyIntB ((store0 Key.counterKey).getD zeroBytes)
      manifest := fs.lst.getD [] }
  else
    { store := put store0 Key.counterKey zeroBytes
      counter := 0
      manifest := fs.lst.getD [] }

/-- `LMDBWriter.__init__`: with `resume=False` and an existing `data.mdb`,
`os.remove` is called on `data.mdb`, then `lock.mdb`, then `lmdb.lst`, in
that order (`os.remove` raises `FileNotFoundError` on a missing file);
afterwards the environment is opened on the cleared directory. -/
def writerInit (resume : Bool) (fs : FS) : Except PyErr WriterInit :=
  if ¬resume ∧ fs.data.isSome then
    if fs.lock = false then .error (.fileNotFound "lock.mdb")
    else if fs.lst = none then .error (.fileNotFound "lmdb.lst")
    else .ok (openEnv resume ⟨none, false, none⟩)
  else .ok (openEnv resume fs)

/-- C10: opening with `resume=False` on a directory where `data.mdb` exists
deletes `data.mdb`, `lock.mdb` and `lmdb.lst` in that order; if `lock.mdb`
is missing the open fails with `FileNotFoundError` for `lock.mdb` (whatever
the state of `lmdb.lst`), if `lock.mdb` exists but `lmdb.lst` is missing it
fails with `FileNotFoundError` for `lmdb.lst`; in both failure cases no
fresh store is created, and when all three exist a fresh store results. -/
theorem writer_init_clear (fs : FS) (hd : fs.data.isSome) :
    (fs.lock = false → writerInit false fs = .error (.fileNotFound "lock.mdb")) ∧
    (fs.lock = true → fs.lst = none →
      writerInit false fs = .error (.fileNotFound "lmdb.lst")) ∧
    (fs.lock = true → fs.lst ≠ none →
      writerInit false fs = .ok ⟨freshStore, 0, []⟩) := by
  have hcond : ¬false = true ∧ fs.data.isSome = true := ⟨by simp, hd⟩
  refine ⟨?_, ?_, ?_⟩
  · intro hlock
    unfold writerInit
    rw [if_pos hcond, if_pos hlock]
  · intro hlock hlst
    unfold writerInit
    rw [if_pos hcond, if_neg (by simp [hlock]), if_pos hlst]
  · intro hlock hlst
    unfold writerInit
    rw [if_pos hcond, if_neg (by simp [hlock]), if_neg hlst]
    rfl

/-- Witness for `writer_init_clear`: `data.mdb` exists but `lock.mdb` does
not, so the fresh open fails with `FileNotFoundError` on `lock.mdb`. -/
theorem writer_init_clear_witness :
    ((⟨some freshStore, false, some []⟩ : FS).data.isSome) ∧
    ((⟨some freshStore, false, some []⟩ : FS).lock = false →
      writerInit false ⟨some freshStore, false, some []⟩ =
        .error (.fileNotFound "lock.mdb")) ∧
    ((⟨some freshStore, false, some []⟩ : FS).lock = true →
      (⟨some freshStore, false, some []⟩ : FS).lst = none →
      writerInit false ⟨some freshStore, false, some []⟩ =
        .error (.fileNotFound "lmdb.lst")) ∧
    ((⟨some freshStore, false, some []⟩ : FS).lock = true →
      (⟨some freshStore, false, some []⟩ : FS).lst ≠ none →
      writerInit false ⟨some freshStore, false, some []⟩ = .ok ⟨freshStore, 0, []⟩) :=
  ⟨rfl, (writer_init_clear ⟨some freshStore, false, some []⟩ rfl).1,
    (writer_init_clear ⟨some freshStore, false, some []⟩ rfl).2.1,
    (writer_init_clear ⟨some freshStore, false, some []⟩ rfl).2.2⟩

/-- C5: resume round-trip.  Writing the items `itemsA` to a fresh shard,
closing it, reopening the same path with `resume=True`, and writing
`itemsB` yields an in-memory and persisted counter of
`itemsA.length + itemsB.length`, index assignment of the second run
starting at `itemsA.length`, a manifest opened for append (the first-run
manifest kept as a prefix), and every logical index below the total
retrievable through the reader without error. -/
theorem resume_roundtrip (itemsA itemsB : List PItem) (bs1 bs2 : Nat) :
    ∃ st0 st1 : WriterInit,
      writerInit false ⟨none, false, none⟩ = .ok st0 ∧
      st0.counter = 0 ∧ st0.manifest = [] ∧
      writerInit true
        ⟨some (createDataset bs1 itemsA ⟨st0.store, [], st0.manifest, st0.counter⟩).store,
         true,
         some (createDataset bs1 itemsA ⟨st0.store, [], st0.manifest, st0.counter⟩).manifest⟩ =
        .ok st1 ∧
      st1.counter = itemsA.length ∧
      st1.manifest =
        (createDataset bs1 itemsA ⟨st0.store, [], st0.manifest, st0.counter⟩).manifest ∧
      (createDataset bs2 itemsB ⟨st1.store, [], st1.manifest, st1.counter⟩).counter =
        itemsA.length + itemsB.length ∧
      shardLen (createDataset bs2 itemsB ⟨st1.store, [], st1.manifest, st1.counter⟩).store =
        itemsA.length + itemsB.length ∧
      (createDataset bs2 itemsB ⟨st1.store, [], st1.manifest, st1.counter⟩).manifest =
        itemsA.map (fun p => p.imagePath) ++ itemsB.map (fun p => p.imagePath) ∧
      (∀ idx : Nat, idx < itemsA.length + itemsB.length →
        ∃ b l, readerGet
          [(createDataset bs2 itemsB ⟨st1.store, [], st1.manifest, st1.counter⟩).store]
          (idx : Int) = .ok (bytes2pil b, l)) := by
  obtain ⟨hwf1a, hcnt1, hman1⟩ :=
    createDataset_spec bs1 itemsA ⟨freshStore, [], [], 0⟩
      ⟨0, [], storeWF_fresh.2, storeWF_fresh.1, rfl, rfl⟩
  have hwf1 : StoreWF (createDataset bs1 itemsA ⟨freshStore, [], [], 0⟩).store
      itemsA.length := by simpa using hwf1a
  have hman1a : (createDataset bs1 itemsA ⟨freshStore, [], [], 0⟩).manifest =
      itemsA.map (fun p => p.imagePath) := by simpa using hman1
  have hinv2 : CoordInv ⟨(createDataset bs1 itemsA ⟨freshStore, [], [], 0⟩).store, [],
      (createDataset bs1 itemsA ⟨freshStore, [], [], 0⟩).manifest, itemsA.length⟩ :=
    ⟨itemsA.length, [], hwf1.2, hwf1.1, rfl, rfl⟩
  obtain ⟨hwf2a, hcnt2, hman2⟩ := createDataset_spec bs2 itemsB _ hinv2
  have hwf2 : StoreWF (createDataset bs2 itemsB
      ⟨(createDataset bs1 itemsA ⟨freshStore, [], [], 0⟩).store, [],
       (createDataset bs1 itemsA ⟨freshStore, [], [], 0⟩).manifest, itemsA.length⟩).store
      (itemsA.length + itemsB.length) := by simpa using hwf2a
  refine ⟨⟨freshStore, 0, []⟩,
    ⟨(createDataset bs1 itemsA ⟨freshStore, [], [], 0⟩).store, itemsA.length,
     (createDataset bs1 itemsA ⟨freshStore, [], [], 0⟩).manifest⟩,
    ?_, rfl, rfl, ?_, rfl, rfl, ?_, ?_, ?_, ?_⟩
  · unfold writerInit
    rw [if_neg (by simp)]
    rfl
  · unfold writerInit
    rw [if_neg (by simp)]
    unfold openEnv
    rw [if_pos rfl]
    simp only [Option.getD_some, hwf1.1, pyIntB_encCounter]
  · simpa using hcnt2
  · exact shardLen_of_counter _ _ hwf2.1
  · have h2 : (createDataset bs2 itemsB
        ⟨(createDataset bs1 itemsA ⟨freshStore, [], [], 0⟩).store, [],
         (createDataset bs1 itemsA ⟨freshStore, [], [], 0⟩).manifest, itemsA.length⟩).manifest =
        (createDataset bs1 itemsA ⟨freshStore, [], [], 0⟩).manifest ++
          itemsB.map (fun p => p.imagePath) := by simpa using hman2
    show (createDataset bs2 itemsB
        ⟨(createDataset bs1 itemsA ⟨freshStore, [], [], 0⟩).store, [],
         (createDataset bs1 itemsA ⟨freshStore, [], [], 0⟩).manifest, itemsA.length⟩).manifest = _
    rw [h2, hman1a]
  · intro idx hidx
    exact readerGet_single_ok _ _ hwf2 idx hidx

/-- Witness for `resume_roundtrip` at one item per run. -/
theorem resume_roundtrip_witness :
    ∃ st0 st1 : WriterInit,
      writerInit false ⟨none, false, none⟩ = .ok st0 ∧
      st0.counter = 0 ∧ st0.manifest = [] ∧
      writerInit true
        ⟨some (createDataset 10 witItems ⟨st0.store, [], st0.manifest, st0.counter⟩).store,
         true,
         some (createDataset 10 witItems ⟨st0.store, [], st0.manifest, st0.counter⟩).manifest⟩ =
        .ok st1 ∧
      st1.counter = witItems.length ∧
      st1.manifest =
        (createDataset 10 witItems ⟨st0.store, [], st0.manifest, st0.counter⟩).manifest ∧
      (createDataset 10 witItems ⟨st1.store, [], st1.manifest, st1.counter⟩).counter =
        witItems.length + witItems.length ∧
      shardLen (createDataset 10 witItems ⟨st1.store, [], st1.manifest, st1.counter⟩).store =
        witItems.length + witItems.length ∧
      (createDataset 10 witItems ⟨st1.store, [], st1.manifest, st1.counter⟩).manifest =
        witItems.map (fun p => p.imagePath) ++ witItems.map (fun p => p.imagePath) ∧
      (∀ idx : Nat, idx < witItems.length + witItems.length →
        ∃ b l, readerGet
          [(createDataset 10 witItems ⟨st1.store, [], st1.manifest, st1.counter⟩).store]
          (idx : Int) = .ok (bytes2pil b, l)) :=
  resume_roundtrip witItems witItems 10 10

/-! ### Recovery (`LMDBRecovery`) -/

/-- The loop of `LMDBRecovery.recover_images`:
`for idx, image_path in enumerate(self.file_list)` — fetch `image-<idx>`;
a missing key is logged and skipped; a present key writes the raw stored
bytes to the file named by the manifest line.  The returned list is the
sequence of `(filename, contents)` files written, in order. -/
def recoverLoop (store : Store) : Nat → List String → List (String × Bytes)
  | _, [] => []
  | idx, name :: rest =>
    match store (Key.image idx) with
    | none => recoverLoop store (idx + 1) rest
    | some b => (name, b) :: recoverLoop store (idx + 1) rest

/-- `LMDBRecovery.recover_images` run to completion over the manifest. -/
def recoverImages (store : Store) (fileList : List String) : List (String × Bytes) :=
  recoverLoop store 0 fileList

/-- Modelled from the spec: the wording of the recovery contract says the
iteration runs `i` from `0` to `min(len(manifest), counter) - 1`; this
definition follows that wording, for comparison with `recoverImages`. -/
def recoverImagesSpec (store : Store) (fileList : List String) : List (String × Bytes) :=
  recoverLoop store 0 (fileList.take (min fileList.length (shardLen store)))

/-- A shard whose counter (1) lags behind its stored images (2) and its
manifest (2 lines), as after an unclean shutdown between manifest append
and commit. -/
def recoveryCexStore : Store :=
  put (put (put emptyStore Key.counterKey (encCounter 1)) (Key.image 0) [10])
    (Key.image 1) [20]

/-- C3 counterexample: with a two-line manifest and counter 1, the code
recovers both stored images — it iterates over the whole manifest — while
the claimed bound `min(len(manifest), counter)` would stop after one file.
The two behaviours differ on this input. -/
theorem recovery_iteration_cex :
    shardLen recoveryCexStore = 1 ∧
    recoverImages recoveryCexStore ["a.png", "b.png"] =
      [("a.png", [10]), ("b.png", [20])] ∧
    recoverImagesSpec recoveryCexStore ["a.png", "b.png"] = [("a.png", [10])] ∧
    recoverImages recoveryCexStore ["a.png", "b.png"] ≠
      recoverImagesSpec recoveryCexStore ["a.png", "b.png"] := by
  refine ⟨by decide, by decide, by decide, by decide⟩

theorem recoverLoop_enumFrom (store : Store) : ∀ (fileList : List String) (start : Nat),
    recoverLoop store start fileList =
      (List.enumFrom start fileList).filterMap
        (fun p => (store (Key.image p.1)).map (fun b => (p.2, b))) := by
  intro fileList
  induction fileList with
  | nil => intro start; rfl
  | cons name rest ih =>
    intro start
    rw [recoverLoop]
    cases himg : store (Key.image start) with
    | none =>
      rw [ih (start + 1)]
      show _ = (List.enumFrom start (name :: rest)).filterMap _
      rw [List.enumFrom_cons, List.filterMap_cons, himg]
      rfl
    | some b =>
      rw [ih (start + 1)]
      show _ = (List.enumFrom start (name :: rest)).filterMap _
      rw [List.enumFrom_cons, List.filterMap_cons, himg]
      rfl

/-- C3 amended: `recover_images` iterates over the entire manifest — one
index per line, independent of the counter: for each `i < len(manifest)`
it fetches `image-<i>`; if present it writes the stored bytes to the file
named by manifest line `i`; if absent it logs and skips that line without
aborting the recovery. -/
theorem recovery_iterates_manifest (store : Store) (fileList : List String) :
    recoverImages store fileList =
      fileList.enum.filterMap
        (fun p => (store (Key.image p.1)).map (fun b => (p.2, b))) :=
  recoverLoop_enumFrom store fileList 0

end LmdbTool
